import Mathlib

/-!
# Verification of `binary-matrix` (`src/BinaryMatrix.ts`)

A shallow embedding of the immutable N-dimensional boolean matrix engine.
The matrix class itself (`src/BinaryMatrix.ts`) is translated directly.
Helper modules referenced by the class but shipped outside `src/`
(`indicesToOffset`, `offsetToIndices`, `sizeToBitLength`, `checkExpansion`,
`isSame`) and the external collaborators (`@hookun/bitbybit` bit-buffer
primitives, `@hookun/vlq` variable-length integer codec) are modelled from
the specification, as marked on each definition.

Modelling conventions:
* JavaScript numbers used as sizes/indices are `Int` (indices may be
  negative); bit offsets are `Nat`.
* An `ArrayBuffer` is a `List Bool` whose length is the byte-aligned
  (rounded up to a multiple of 8) allocation size.
* The `@hookun/vlq` codec bijectively maps sequences of non-negative
  integers to byte sequences; we work with the integer sequence
  (`List Nat`) directly.
* Fallible operations return `Except MatrixError _`; the unbounded
  recursion of `set` is given fuel (`setFuel`), with `none` meaning the
  recursion did not reach a base case within the given fuel.
-/

namespace BinaryMatrixSpec

/-- Errors of the engine's error taxonomy (spec §7). -/
inductive MatrixError where
  | DimensionMismatch : MatrixError
  | OutOfRangeRead : MatrixError
  deriving DecidableEq, Repr

/-- Modelled from the spec: bit-buffer collaborator `createBufferFromBitLength`
allocates an `ArrayBuffer` (byte granular, hence byte-padded) large enough for
`n` bits, zero-filled. -/
def byteAlignedBitLength (n : Nat) : Nat := 8 * ((n + 7) / 8)

/-- Modelled from the spec: zero-filled buffer for `n` bits (byte-padded). -/
def createBufferFromBitLength (n : Nat) : List Bool :=
  List.replicate (byteAlignedBitLength n) false

/-- Modelled from the spec: bit-buffer collaborator `getBit` reads one bit
by offset (reads beyond the storage yield `false`/undefined-as-false). -/
def getBit (buffer : List Bool) (offset : Nat) : Bool :=
  buffer.getD offset false

/-- Modelled from the spec: bit-buffer collaborator `setBit` writes one bit
by offset (a write beyond the storage is dropped). -/
def setBit (buffer : List Bool) (offset : Nat) (state : Bool) : List Bool :=
  buffer.set offset state

/-- Modelled from the spec (missing repo file `sizeToBitLength.ts`):
`totalBits(Size) = Π Size[d]`. -/
def sizeToBitLength (size : List Int) : Nat :=
  (size.map Int.toNat).prod

/-- Modelled from the spec (missing repo file `indicesToOffset.ts`),
§4.1 AddressingEngine: mixed-radix weighted sum
`offset = Σ_d Indices[d] · Π_{k<d} Size[k]` (dimension 0 fastest-varying),
with the explicit failure modes of §4.3/§7: a read at an index outside
`[0, Size[d])` fails with `OutOfRangeRead` rather than computing a
meaningless offset, and an `Indices` whose length differs from the
dimension count fails with `DimensionMismatch`. -/
def indicesToOffset : List Int → List Int → Except MatrixError Nat
  | [], [] => .ok 0
  | s :: size, i :: indices =>
    if i < 0 || s ≤ i then .error .OutOfRangeRead
    else
      match indicesToOffset size indices with
      | .error e => .error e
      | .ok rest => .ok (i.toNat + s.toNat * rest)
  | _, _ => .error .DimensionMismatch

/-- Modelled from the spec (missing repo file `offsetToIndices.ts`),
§4.1 AddressingEngine: inverse of `indicesToOffset` via successive
modulo/divide by each `Size[d]` in dimension order. -/
def offsetToIndices : List Int → Nat → List Int
  | [], _ => []
  | s :: size, offset =>
    ((offset % s.toNat : Nat) : Int) :: offsetToIndices size (offset / s.toNat)

/-- The expansion descriptor: `size` is the new bounding box, `pos` the
origin translation (`originShift`), matching the fields destructured in
`setExternalBit`. -/
structure Expansion where
  size : List Int
  pos : List Int
  deriving Repr

/-- Per-dimension test of spec §4.2: expansion is required iff
`Indices[d] < 0` or `Indices[d] ≥ Size[d]` for some dimension `d`. -/
def expansionRequired (size indices : List Int) : Bool :=
  (indices.zip size).any fun p => p.1 < 0 || p.2 ≤ p.1

/-- Modelled from the spec (missing repo file `checkExpansion.ts`), §4.2
ExpansionPlanner: when some dimension is out of range, per dimension
`low[d] = min(0, Indices[d])`, `high[d] = max(Size[d]-1, Indices[d])`,
`newSize[d] = high[d]-low[d]+1`, `originShift[d] = -low[d]`; returns
`none` when no dimension needs change. (For an in-range dimension the
formulas reduce to `newSize[d] = Size[d]`, `originShift[d] = 0`.) -/
def checkExpansion (size indices : List Int) : Option Expansion :=
  if expansionRequired size indices then
    some
      { size := (indices.zip size).map fun p => max (p.2 - 1) p.1 - min 0 p.1 + 1
        pos := indices.map fun i => -(min 0 i) }
  else none

/-- The matrix value: extents plus packed bit buffer
(`public readonly size`, `public readonly buffer`). -/
structure BinaryMatrix where
  size : List Int
  buffer : List Bool
  deriving DecidableEq, Repr

namespace BinaryMatrix

/-- `new BinaryMatrix(size)` with the default zero-filled buffer
(`createBufferFromBitLength(sizeToBitLength(size))`); also the factory
`fromSize`. -/
def fromSize (size : List Int) : BinaryMatrix :=
  ⟨size, createBufferFromBitLength (sizeToBitLength size)⟩

/-- `fromDimension(dimension)`: `new BinaryMatrix((new Array(dimension)).fill(0))`. -/
def fromDimension (dimension : Nat) : BinaryMatrix :=
  fromSize (List.replicate dimension 0)

/-- `get bitLength()`: `sizeToBitLength(this.size)` (the `_bitLength`
memoisation caches the same value). -/
def bitLength (M : BinaryMatrix) : Nat :=
  sizeToBitLength M.size

/-- `get(indices)`: `getBit(this.buffer, indicesToOffset(this.size, indices))`. -/
def get (M : BinaryMatrix) (indices : List Int) : Except MatrixError Bool :=
  match indicesToOffset M.size indices with
  | .error e => .error e
  | .ok offset => .ok (getBit M.buffer offset)

/-- `setInternalBit(indices, state)`: clone the buffer, set one bit, same size. -/
def setInternalBit (M : BinaryMatrix) (indices : List Int) (state : Bool) :
    Except MatrixError BinaryMatrix :=
  match indicesToOffset M.size indices with
  | .error e => .error e
  | .ok offset => .ok ⟨M.size, setBit M.buffer offset state⟩

/-- `listBit()`: every cell exactly once in storage order, stopping after
`bitLength` bits. The external generator iterates all storage bits; the
`break` bounds the yield count to `bitLength` (storage holds at least
`bitLength` bits, so the truncation below is exactly the loop's `break`). -/
def listBit (M : BinaryMatrix) : List (Bool × List Int) :=
  (List.range M.bitLength).map fun bitOffset =>
    (getBit M.buffer bitOffset, offsetToIndices M.size bitOffset)

/-- Modelled from the spec: bit-buffer collaborator `listBitHasState`
iterates the offsets within `[start, stop)` whose bit equals `state`,
in increasing order. -/
def listBitHasState (buffer : List Bool) (state : Bool) (start stop : Nat) :
    List Nat :=
  (List.range' start (stop - start)).filter fun o => getBit buffer o == state

/-- `list(state)`: indices of all cells whose bit equals `state`, from
`listBitHasState(this.buffer, state, 0, this.bitLength)`. -/
def list (M : BinaryMatrix) (state : Bool) : List (List Int) :=
  (listBitHasState M.buffer state 0 M.bitLength).map (offsetToIndices M.size)

/-- The body of `paste`'s `for`-loop over `patch.listBit()`: translate each
patch cell by `pos` (`indices.map((index, dimension) => index + pos[dimension])`),
and write the patch bit when it differs from the current bit. -/
def pasteLoop (msize pos : List Int) :
    List (Bool × List Int) → List Bool → Except MatrixError (List Bool)
  | [], buffer => .ok buffer
  | (bit, indices) :: rest, buffer =>
    let sourceIndices := indices.zipWith (· + ·) pos
    match indicesToOffset msize sourceIndices with
    | .error e => .error e
    | .ok bitOffset =>
      let currentBit := getBit buffer bitOffset
      pasteLoop msize pos rest
        (if currentBit != bit then setBit buffer bitOffset bit else buffer)

/-- `paste(patch, pos)`: clone the buffer, write every cell of `patch` at
its translated position, return a matrix of the same size. -/
def paste (M patch : BinaryMatrix) (pos : List Int) :
    Except MatrixError BinaryMatrix :=
  match pasteLoop M.size pos patch.listBit M.buffer with
  | .error e => .error e
  | .ok buffer => .ok ⟨M.size, buffer⟩

/-- `set(indices, state)` with explicit fuel for the recursion of
`setExternalBit` (`new BinaryMatrix(size).paste(this, pos).set(indices, state)`,
which recurses into `set` with the untranslated `indices`). `none` means
the recursion did not terminate within `fuel` steps. -/
def setFuel (M : BinaryMatrix) (indices : List Int) (state : Bool) :
    Nat → Option (Except MatrixError BinaryMatrix)
  | 0 => none
  | fuel + 1 =>
    match checkExpansion M.size indices with
    | some expansion =>
      match (fromSize expansion.size).paste M expansion.pos with
      | .error e => some (.error e)
      | .ok M2 => M2.setFuel indices state fuel
    | none => some (M.setInternalBit indices state)

end BinaryMatrix

/-- Modelled from the spec (missing repo file `isSame.ts`), §3 equality
invariant: two matrices are equal iff identical `Size` and identical bit
value at every in-range `Indices` (equivalently, at every linear offset
below `bitLength`; buffer padding beyond `bitLength` is not compared). -/
def isSame (a b : BinaryMatrix) : Bool :=
  a.size == b.size &&
    (List.range (sizeToBitLength a.size)).all fun o =>
      getBit a.buffer o == getBit b.buffer o

/-- The character test of `fromString`'s inner loop:
`row[columnIndex] !== '0'`. Indexing beyond the row's length yields
`undefined` in JavaScript, and `undefined !== '0'` holds, so a missing
character reads as `true`. -/
def fromStringCell (row : String) (columnIndex : Nat) : Bool :=
  match row.toList.get? columnIndex with
  | some c => c != '0'
  | none => true

/-- `fromString(rows)`: `Size = [first row length, row count]`; for each row
and column, set the bit at `columnCount * rowIndex + columnIndex` when the
character differs from `'0'`. -/
def fromString (rows : List String) : BinaryMatrix :=
  let rowCount := rows.length
  let columnCount := (rows.headD "").length
  let size : List Int := [(columnCount : Int), (rowCount : Int)]
  let buffer :=
    (List.range rowCount).foldl
      (fun buf rowIndex =>
        let row := rows.getD rowIndex ""
        let bitOffset := columnCount * rowIndex
        (List.range columnCount).foldl
          (fun buf2 columnIndex =>
            if fromStringCell row columnIndex then
              setBit buf2 (bitOffset + columnIndex) true
            else buf2)
          buf)
      (createBufferFromBitLength (sizeToBitLength size))
  ⟨size, buffer⟩

/-- Modelled from the spec: bit-buffer collaborator `runLength` extracts the
alternating run lengths over `[start, stop)`: counts of equal consecutive
bits, framed to start with the 0-bit run (a leading `true` bit yields a
zero-length first run); an empty range yields no runs. `state` is the bit
value of the run currently being counted, `count` its length so far. -/
def runLengthAux : Bool → Nat → List Bool → List Nat
  | _, count, [] => [count]
  | state, count, b :: bs =>
    if b == state then runLengthAux state (count + 1) bs
    else count :: runLengthAux (!state) 1 bs

/-- Run lengths of a whole bit list, starting with the (possibly empty)
0-bit run. -/
def runLengthList : List Bool → List Nat
  | [] => []
  | b :: bs => runLengthAux false 0 (b :: bs)

/-- Modelled from the spec: `runLength(buffer, start, stop)` over the bit
range `[start, stop)` of the storage. -/
def runLength (buffer : List Bool) (start stop : Nat) : List Nat :=
  runLengthList ((buffer.take stop).drop start)

/-- Modelled from the spec: the sequential bit writer (`BitWriter`) appends
runs of constant bits into a fixed-capacity buffer. -/
structure BitWriter where
  capacity : Nat
  written : List Bool

/-- `writer.write(value, bitLength)` where `value` is `2**bitLength - 1`
(all ones) or `0` (all zeros): append `len` bits of `state`. -/
def BitWriter.write (w : BitWriter) (state : Bool) (len : Nat) : BitWriter :=
  ⟨w.capacity, w.written ++ List.replicate len state⟩

/-- `writer.end()`: the backing buffer — written bits followed by the
untouched zero fill, clipped to the allocated capacity. -/
def BitWriter.endBuffer (w : BitWriter) : List Bool :=
  (w.written ++ List.replicate w.capacity false).take w.capacity

/-- `decode`'s `while (bitOffset < totalBitLength)` loop: while the cursor
is below the total, consume the next run length, write that many bits of
the current state, toggle the state. When the integer stream is exhausted
the JavaScript loop performs one iteration on `undefined` (writing nothing
meaningful, `bitOffset` becomes `NaN`) and exits; the model stops there. -/
def decodeLoop (total : Nat) :
    List Nat → Nat → Bool → BitWriter → BitWriter
  | [], _, _, w => w
  | len :: rest, bitOffset, state, w =>
    if bitOffset < total then
      decodeLoop total rest (bitOffset + len) (!state) (w.write state len)
    else w

/-- `encode()`: the integer sequence handed to the vlq codec —
`[size.length, ...size, ...runLength(buffer, 0, bitLength)]`. The byte
serialisation by `@hookun/vlq` is a bijection on integer sequences and is
modelled as the identity. -/
def BinaryMatrix.encode (M : BinaryMatrix) : List Nat :=
  M.size.length :: (M.size.map Int.toNat ++ runLength M.buffer 0 M.bitLength)

/-- `decode(encoded)`: read the dimension count, then one extent per axis,
allocate a zero buffer of `sizeToBitLength(size)` bits, then write
alternating runs (state starts `false`) until the bit cursor reaches the
total. An empty stream leaves the dimension count undefined, so no size
entries are read (size `[]`); this input is unreachable from `encode`. -/
def BinaryMatrix.decode (encoded : List Nat) : BinaryMatrix :=
  match encoded with
  | [] => ⟨[], createBufferFromBitLength (sizeToBitLength [])⟩
  | dimensionCount :: rest =>
    let size : List Int := (rest.take dimensionCount).map Int.ofNat
    let runs := rest.drop dimensionCount
    let totalBitLength := sizeToBitLength size
    let writer := decodeLoop totalBitLength runs 0 false
      ⟨byteAlignedBitLength totalBitLength, []⟩
    ⟨size, writer.endBuffer⟩

/-- In-range indices: same length as `size`, every component within
`[0, Size[d])`. -/
def InRange (size indices : List Int) : Prop :=
  indices.length = size.length ∧ ∀ p ∈ indices.zip size, 0 ≤ p.1 ∧ p.1 < p.2

instance (size indices : List Int) : Decidable (InRange size indices) := by
  unfold InRange; infer_instance

/-- Interpretation of a run-length stream (spec §6 wire format): the bit
sequence denoted by alternating runs whose first run carries `state`. -/
def runsToBits : Bool → List Nat → List Bool
  | _, [] => []
  | state, len :: rest => List.replicate len state ++ runsToBits (!state) rest

end BinaryMatrixSpec

namespace BinaryMatrixSpec

open BinaryMatrix

/-! ## Basic buffer lemmas -/

instance {ε α : Type} [DecidableEq ε] [DecidableEq α] :
    DecidableEq (Except ε α) := fun x y =>
  match x, y with
  | .ok a, .ok b =>
    decidable_of_iff (a = b) ⟨fun h => by rw [h], fun h => by injection h⟩
  | .error e, .error f =>
    decidable_of_iff (e = f) ⟨fun h => by rw [h], fun h => by injection h⟩
  | .ok _, .error _ => isFalse fun c => Except.noConfusion c
  | .error _, .ok _ => isFalse fun c => Except.noConfusion c

theorem setBit_length (buffer : List Bool) (offset : Nat) (state : Bool) :
    (setBit buffer offset state).length = buffer.length := by
  simp [setBit]

theorem getBit_setBit_self (buffer : List Bool) (offset : Nat) (state : Bool)
    (h : offset < buffer.length) :
    getBit (setBit buffer offset state) offset = state := by
  induction buffer generalizing offset with
  | nil => simp at h
  | cons b bs ih =>
    cases offset with
    | zero => rfl
    | succ o => simpa [getBit, setBit] using ih o (by simpa using h)

theorem getBit_setBit_ne (buffer : List Bool) (offset p : Nat) (state : Bool)
    (h : p ≠ offset) :
    getBit (setBit buffer offset state) p = getBit buffer p := by
  induction buffer generalizing offset p with
  | nil => simp [setBit]
  | cons b bs ih =>
    cases offset with
    | zero =>
      cases p with
      | zero => exact absurd rfl h
      | succ q => simp [getBit, setBit]
    | succ o =>
      cases p with
      | zero => simp [getBit, setBit]
      | succ q => simpa [getBit, setBit] using ih o q (by omega)

/-! ## Claim C5 — `fromDimension` -/

/-- Claim C5, counterexample: `fromDimension(2)` is not a unit hyper-cube:
its `Size` is `[0, 0]` (extent 0 on both axes, `(new Array(2)).fill(0)`),
and its `bitLength` is `0`, not `1`. -/
theorem C5_counterexample :
    (fromDimension 2).size = [0, 0] ∧ (fromDimension 2).bitLength ≠ 1 := by
  decide

/-- Claim C5 as amended: for every positive dimension count `n`,
`fromDimension(n)` builds a matrix whose `Size` has length `n` with extent
`0` (not `1`) on every axis, so its `bitLength` is `0`. -/
theorem C5_amended (n : Nat) (h : 0 < n) :
    (fromDimension n).size = List.replicate n (0 : Int) ∧
      (fromDimension n).bitLength = 0 := by
  refine ⟨rfl, ?_⟩
  show sizeToBitLength (List.replicate n (0 : Int)) = 0
  rw [sizeToBitLength, List.map_replicate, List.prod_replicate]
  exact zero_pow (by omega)

/-- Witness for `C5_amended` at `n = 3`. -/
theorem C5_amended_witness :
    0 < 3 ∧ ((fromDimension 3).size = List.replicate 3 (0 : Int) ∧
      (fromDimension 3).bitLength = 0) :=
  ⟨by decide, C5_amended 3 (by decide)⟩

/-! ## Claim C6 — `fromString` on unequal-length rows -/

/-- Claim C6, counterexample: `fromString(["00", "1"])` does not abort on the
row-length violation — it returns a `[2, 2]` matrix in which the character
missing from the short row `"1"` silently reads back as `true` (in the
source, `row[columnIndex]` is `undefined` and `undefined !== '0'` holds),
i.e. the short row is padded rather than rejected. -/
theorem C6_counterexample :
    (fromString ["00", "1"]).size = [2, 2] ∧
      (fromString ["00", "1"]).get [1, 1] = .ok true :=
  ⟨rfl, rfl⟩

/-! ## Claim C7 — `decode` on a run-length sum mismatch -/

/-- Once the bit cursor has reached the total, the loop consumes nothing
further. -/
theorem decodeLoop_done (total : Nat) (runs : List Nat) (bitOffset : Nat)
    (state : Bool) (w : BitWriter) (h : total ≤ bitOffset) :
    decodeLoop total runs bitOffset state w = w := by
  cases runs with
  | nil => rfl
  | cons len rest => rw [decodeLoop, if_neg (by omega)]

/-- When `runs` already covers the total bit count, any surplus integers
appended after `runs` are never consumed by `decode`'s
`while (bitOffset < totalBitLength)` loop. -/
theorem decodeLoop_append_extra (total : Nat) (runs extra : List Nat)
    (bitOffset : Nat) (state : Bool) (w : BitWriter)
    (h : total ≤ bitOffset + runs.sum) :
    decodeLoop total (runs ++ extra) bitOffset state w =
      decodeLoop total runs bitOffset state w := by
  induction runs generalizing bitOffset state w with
  | nil =>
    rw [List.nil_append, decodeLoop_done total extra bitOffset state w (by simpa using h)]
    rfl
  | cons len rest ih =>
    rw [List.cons_append, decodeLoop, decodeLoop]
    by_cases hlt : bitOffset < total
    · rw [if_pos hlt, if_pos hlt]
      exact ih (bitOffset + len) (!state) (w.write state len)
        (by simp at h ⊢; omega)
    · rw [if_neg hlt, if_neg hlt]

/-- Claim C7, counterexample: the encoded input `[1, 2, 1, 1, 5]` declares
`D = 1`, `Size = [2]` (total bit count 2) but carries runs `1, 1, 5` summing
to 7 ≠ 2. `decode` does not abort with any error: it silently ignores the
surplus run and returns exactly the matrix obtained from the matching input
`[1, 2, 1, 1]`. -/
theorem C7_counterexample :
    BinaryMatrix.decode [1, 2, 1, 1, 5] = BinaryMatrix.decode [1, 2, 1, 1] ∧
      (BinaryMatrix.decode [1, 2, 1, 1, 5]).size = [2] ∧
      (BinaryMatrix.decode [1, 2, 1, 1, 5]).get [1] = .ok true :=
  ⟨rfl, rfl, by decide⟩

/-- Claim C7 as amended: `decode` performs no run-length-sum validation and
never raises an error. Whenever the declared runs already cover the total
bit count, any surplus integers in the input are silently ignored: decoding
`D :: Size ++ runs ++ extra` yields exactly the matrix of
`D :: Size ++ runs`. (With too few runs, the loop simply stops early,
leaving the remaining bits zero; `decode` always terminates with a matrix.) -/
theorem C7_amended (dims runs extra : List Nat) (d : Nat)
    (hd : d = dims.length)
    (hsum : sizeToBitLength (dims.map Int.ofNat) ≤ runs.sum) :
    BinaryMatrix.decode (d :: (dims ++ (runs ++ extra))) =
      BinaryMatrix.decode (d :: (dims ++ runs)) := by
  subst hd
  rw [BinaryMatrix.decode, BinaryMatrix.decode]
  rw [List.take_left' rfl, List.take_left' rfl, List.drop_left' rfl,
    List.drop_left' rfl]
  rw [decodeLoop_append_extra _ _ _ _ _ _ (by simpa using hsum)]

/-- Witness for `C7_amended` at the concrete mismatched input
`[1, 2, 1, 1, 5]`. -/
theorem C7_amended_witness :
    1 = [2].length ∧ sizeToBitLength ([2].map Int.ofNat) ≤ [1, 1].sum ∧
      BinaryMatrix.decode (1 :: ([2] ++ ([1, 1] ++ [5]))) =
        BinaryMatrix.decode (1 :: ([2] ++ [1, 1])) :=
  ⟨rfl, by decide, C7_amended [2] [1, 1] [5] 1 rfl (by decide)⟩

/-! ## Addressing lemmas -/

theorem sizeToBitLength_nil : sizeToBitLength [] = 1 := rfl

theorem sizeToBitLength_cons (s : Int) (ss : List Int) :
    sizeToBitLength (s :: ss) = s.toNat * sizeToBitLength ss := by
  simp [sizeToBitLength]

theorem inRange_nil_iff (indices : List Int) :
    InRange [] indices ↔ indices = [] := by
  cases indices <;> simp [InRange]

theorem inRange_cons_iff (s i : Int) (ss is : List Int) :
    InRange (s :: ss) (i :: is) ↔ (0 ≤ i ∧ i < s) ∧ InRange ss is := by
  simp only [InRange, List.length_cons, List.zip_cons_cons, List.forall_mem_cons]
  constructor
  · rintro ⟨hl, hp, hrest⟩
    exact ⟨hp, by omega, hrest⟩
  · rintro ⟨hp, hl, hrest⟩
    exact ⟨by omega, hp, hrest⟩

/-- An in-range index list resolves to a linear offset below the total bit
count. -/
theorem indicesToOffset_ok (size indices : List Int)
    (h : InRange size indices) :
    ∃ o, indicesToOffset size indices = .ok o ∧ o < sizeToBitLength size := by
  induction size generalizing indices with
  | nil =>
    rw [inRange_nil_iff] at h
    subst h
    exact ⟨0, rfl, by simp [sizeToBitLength]⟩
  | cons s ss ih =>
    cases indices with
    | nil => simp [InRange] at h
    | cons i is =>
      rw [inRange_cons_iff] at h
      obtain ⟨⟨hi0, his⟩, hrest⟩ := h
      obtain ⟨o, ho, holt⟩ := ih is hrest
      refine ⟨i.toNat + s.toNat * o, ?_, ?_⟩
      · rw [indicesToOffset, if_neg (by simp; omega), ho]
      · rw [sizeToBitLength_cons]
        have hlt : i.toNat < s.toNat := by omega
        calc i.toNat + s.toNat * o < s.toNat + s.toNat * o :=
              Nat.add_lt_add_right hlt _
          _ = s.toNat * (o + 1) := by ring
          _ ≤ s.toNat * sizeToBitLength ss :=
              Nat.mul_le_mul_left _ (Nat.succ_le_of_lt holt)

/-- Two in-range index lists with the same linear offset are equal
(the mixed-radix addressing is injective on the valid range). -/
theorem indicesToOffset_inj (size : List Int) :
    ∀ (a b : List Int), InRange size a → InRange size b →
      ∀ o : Nat, indicesToOffset size a = .ok o →
        indicesToOffset size b = .ok o → a = b := by
  induction size with
  | nil =>
    intro a b ha hb o _ _
    rw [inRange_nil_iff] at ha hb
    rw [ha, hb]
  | cons s ss ih =>
    intro a b ha hb o h1 h2
    cases a with
    | nil => simp [InRange] at ha
    | cons i is =>
      cases b with
      | nil => simp [InRange] at hb
      | cons j js =>
        rw [inRange_cons_iff] at ha hb
        obtain ⟨⟨hi0, his⟩, hia⟩ := ha
        obtain ⟨⟨hj0, hjs⟩, hjb⟩ := hb
        obtain ⟨o1, ho1, _⟩ := indicesToOffset_ok ss is hia
        obtain ⟨o2, ho2, _⟩ := indicesToOffset_ok ss js hjb
        rw [indicesToOffset, if_neg (by simp; omega), ho1] at h1
        rw [indicesToOffset, if_neg (by simp; omega), ho2] at h2
        have e1 : i.toNat + s.toNat * o1 = o := by injection h1
        have e2 : j.toNat + s.toNat * o2 = o := by injection h2
        have hilt : i.toNat < s.toNat := by omega
        have hjlt : j.toNat < s.toNat := by omega
        have hmod1 : o % s.toNat = i.toNat := by
          rw [← e1, Nat.add_mul_mod_self_left, Nat.mod_eq_of_lt hilt]
        have hmod2 : o % s.toNat = j.toNat := by
          rw [← e2, Nat.add_mul_mod_self_left, Nat.mod_eq_of_lt hjlt]
        have hij : i = j := by
          rw [← Int.toNat_of_nonneg hi0, ← Int.toNat_of_nonneg hj0,
            ← hmod1, ← hmod2]
        have ho12 : o1 = o2 := by
          have : s.toNat * o1 = s.toNat * o2 := by omega
          exact Nat.eq_of_mul_eq_mul_left (by omega) this
        rw [hij, ih is js hia hjb o1 ho1 (ho12 ▸ ho2)]

theorem indicesToOffset_cons_ok (s i : Int) (ss is : List Int) (o : Nat)
    (h0 : 0 ≤ i) (h1 : i < s) (h : indicesToOffset ss is = .ok o) :
    indicesToOffset (s :: ss) (i :: is) = .ok (i.toNat + s.toNat * o) := by
  rw [indicesToOffset, if_neg (by simp; omega), h]

/-- For positive extents, `offsetToIndices` is a right inverse of
`indicesToOffset` on offsets below the total bit count, and it lands in
range. -/
theorem offsetToIndices_spec (size : List Int) :
    ∀ (offset : Nat), (∀ s ∈ size, 1 ≤ s) →
      offset < sizeToBitLength size →
      InRange size (offsetToIndices size offset) ∧
        indicesToOffset size (offsetToIndices size offset) = .ok offset := by
  induction size with
  | nil =>
    intro offset _ h
    rw [sizeToBitLength_nil] at h
    interval_cases offset
    exact ⟨by simp [InRange, offsetToIndices], rfl⟩
  | cons s ss ih =>
    intro offset hpos h
    have hs : 1 ≤ s := hpos s (by simp)
    have hst : 1 ≤ s.toNat := by omega
    rw [sizeToBitLength_cons] at h
    have hdiv : offset / s.toNat < sizeToBitLength ss := by
      rw [Nat.div_lt_iff_lt_mul (by omega), Nat.mul_comm]
      exact h
    obtain ⟨hin, heq⟩ := ih (offset / s.toNat)
      (fun x hx => hpos x (by simp [hx])) hdiv
    have hmodlt : offset % s.toNat < s.toNat := Nat.mod_lt _ (by omega)
    have hcomp : (0 : Int) ≤ ((offset % s.toNat : Nat) : Int) ∧
        ((offset % s.toNat : Nat) : Int) < s := by
      constructor
      · exact Int.ofNat_nonneg _
      · calc ((offset % s.toNat : Nat) : Int) < (s.toNat : Int) := by
              exact_mod_cast hmodlt
          _ = s := Int.toNat_of_nonneg (by omega)
    constructor
    · rw [offsetToIndices, inRange_cons_iff]
      exact ⟨hcomp, hin⟩
    · rw [offsetToIndices,
        indicesToOffset_cons_ok _ _ _ _ _ hcomp.1 hcomp.2 heq,
        Int.toNat_ofNat]
      exact congrArg Except.ok (Nat.mod_add_div _ _)

/-- An index list of the right length with some component out of range makes
`indicesToOffset` fail with `OutOfRangeRead`. -/
theorem indicesToOffset_out (size : List Int) :
    ∀ (indices : List Int), indices.length = size.length →
      (∃ p ∈ indices.zip size, p.1 < 0 ∨ p.2 ≤ p.1) →
      indicesToOffset size indices = .error .OutOfRangeRead := by
  induction size with
  | nil =>
    intro indices hlen hout
    rw [List.length_nil, List.length_eq_zero] at hlen
    subst hlen
    simp at hout
  | cons s ss ih =>
    intro indices hlen hout
    cases indices with
    | nil => simp at hlen
    | cons i is =>
      rw [List.zip_cons_cons, List.exists_mem_cons_iff] at hout
      by_cases hhead : i < 0 ∨ s ≤ i
      · rw [indicesToOffset, if_pos (by simp; omega)]
      · rcases hout with hout | hout
        · exact absurd (by simpa using hout) hhead
        · rw [indicesToOffset, if_neg (by simp; omega),
            ih is (by simpa using hlen) hout]

/-! ## Claim C4 — out-of-range `get` -/

/-- Claim C4: for every matrix `M` and every `Indices` of the matrix's
dimension count with some component outside `[0, Size[d])`, `M.get`
fails with the explicit bounds error `OutOfRangeRead` instead of computing
a meaningless offset and returning a value. (The bounds check lives in the
modelled `indicesToOffset`, per spec §4.1/§4.3/§7.) -/
theorem C4_get_out_of_range (M : BinaryMatrix) (indices : List Int)
    (hlen : indices.length = M.size.length)
    (hout : ∃ p ∈ indices.zip M.size, p.1 < 0 ∨ p.2 ≤ p.1) :
    M.get indices = .error .OutOfRangeRead := by
  rw [BinaryMatrix.get, indicesToOffset_out M.size indices hlen hout]

/-- Witness for `C4_get_out_of_range`: reading `[2, 0]` from the 2×2 matrix
`fromString(["01", "10"])` fails with `OutOfRangeRead`. -/
theorem C4_witness :
    [(2 : Int), 0].length = (fromString ["01", "10"]).size.length ∧
      (∃ p ∈ [(2 : Int), 0].zip (fromString ["01", "10"]).size,
        p.1 < 0 ∨ p.2 ≤ p.1) ∧
      (fromString ["01", "10"]).get [2, 0] = .error .OutOfRangeRead :=
  ⟨by decide, by decide,
    C4_get_out_of_range (fromString ["01", "10"]) [2, 0] (by decide) (by decide)⟩

/-! ## Claim C8 — in-bounds set/get coherence and idempotence -/

/-- In-range indices never trigger the ExpansionPlanner. -/
theorem checkExpansion_none (size indices : List Int)
    (h : InRange size indices) : checkExpansion size indices = none := by
  rw [checkExpansion, if_neg]
  simp only [expansionRequired, List.any_eq_true, not_exists]
  intro p
  rw [not_and]
  intro hp
  have := h.2 p hp
  simp only [Bool.or_eq_true, decide_eq_true_eq]
  omega

theorem get_of_offset (M : BinaryMatrix) (idx : List Int) (o : Nat)
    (h : indicesToOffset M.size idx = .ok o) :
    M.get idx = .ok (getBit M.buffer o) := by
  simp only [BinaryMatrix.get, h]

/-- Claim C8: for every matrix `M` (with its buffer covering `bitLength`
bits, as every reachable buffer does), every in-range index `i` and value
`v`: `M.set(i, v)` succeeds without expansion, returns a matrix of the same
`Size` in which `i` reads back as `v` and every other in-range cell is
unchanged, and setting the same cell to the same value again returns the
identical matrix (`M.set(i,v).set(i,v)` is-same-as `M.set(i,v)`). -/
theorem C8_set_get_coherence (M : BinaryMatrix) (i : List Int) (v : Bool)
    (hbuf : M.bitLength ≤ M.buffer.length)
    (hin : InRange M.size i) :
    ∃ M', (∀ fuel : Nat, M.setFuel i v (fuel + 1) = some (.ok M'))
      ∧ M'.size = M.size
      ∧ M'.get i = .ok v
      ∧ (∀ j, InRange M.size j → j ≠ i → M'.get j = M.get j)
      ∧ (∀ fuel : Nat, M'.setFuel i v (fuel + 1) = some (.ok M')) := by
  obtain ⟨o, ho, holt⟩ := indicesToOffset_ok M.size i hin
  have holen : o < M.buffer.length := lt_of_lt_of_le holt hbuf
  refine ⟨⟨M.size, setBit M.buffer o v⟩, ?_, rfl, ?_, ?_, ?_⟩
  · intro fuel
    simp only [BinaryMatrix.setFuel, checkExpansion_none M.size i hin,
      BinaryMatrix.setInternalBit, ho]
  · rw [get_of_offset ⟨M.size, setBit M.buffer o v⟩ i o ho,
      getBit_setBit_self M.buffer o v holen]
  · intro j hj hne
    obtain ⟨oj, hoj, _⟩ := indicesToOffset_ok M.size j hj
    have hone : oj ≠ o := by
      intro hc
      exact hne (indicesToOffset_inj M.size j i hj hin o (hc ▸ hoj) ho)
    rw [get_of_offset ⟨M.size, setBit M.buffer o v⟩ j oj hoj,
      get_of_offset M j oj hoj, getBit_setBit_ne M.buffer o oj v hone]
  · intro fuel
    simp only [BinaryMatrix.setFuel, checkExpansion_none M.size i hin,
      BinaryMatrix.setInternalBit, ho]
    simp only [setBit, List.set_set]

/-- Witness for `C8_set_get_coherence` on the 2×2 matrix
`fromString(["01", "10"])` at index `[0, 0]` with value `true`. -/
theorem C8_witness :
    (fromString ["01", "10"]).bitLength ≤
        (fromString ["01", "10"]).buffer.length ∧
      InRange (fromString ["01", "10"]).size [0, 0] ∧
      ∃ M', (∀ fuel : Nat,
          (fromString ["01", "10"]).setFuel [0, 0] true (fuel + 1) =
            some (.ok M'))
        ∧ M'.size = (fromString ["01", "10"]).size
        ∧ M'.get [0, 0] = .ok true
        ∧ (∀ j, InRange (fromString ["01", "10"]).size j → j ≠ [0, 0] →
            M'.get j = (fromString ["01", "10"]).get j)
        ∧ (∀ fuel : Nat, M'.setFuel [0, 0] true (fuel + 1) = some (.ok M')) :=
  ⟨by decide, by decide,
    C8_set_get_coherence (fromString ["01", "10"]) [0, 0] true
      (by decide) (by decide)⟩

/-! ## Claim C10 — `list`/`listBit` coverage -/

theorem length_filter_split (l : List Nat) (p : Nat → Bool) :
    (l.filter fun o => p o).length +
      (l.filter fun o => !(p o)).length = l.length := by
  induction l with
  | nil => rfl
  | cons o l ih =>
    cases h : p o <;> simp [List.filter_cons, h] <;> omega

/-- Claim C10: `count(list(true)) + count(list(false)) = bitLength`;
`listBit` yields exactly `bitLength` pairs, and the `k`-th pair's indices
resolve back to linear offset `k` — the offsets are strictly increasing and
the byte padding of the buffer beyond `bitLength` is never exposed by
either sequence (both are bounded by `bitLength`, not by the storage
length). -/
theorem C10_list_coverage (M : BinaryMatrix)
    (hpos : ∀ s ∈ M.size, 1 ≤ s) :
    (M.list true).length + (M.list false).length = M.bitLength
      ∧ M.listBit.length = M.bitLength
      ∧ ∀ k, k < M.bitLength →
          indicesToOffset M.size ((M.listBit.getD k (false, [])).2) = .ok k := by
  refine ⟨?_, by simp [BinaryMatrix.listBit], ?_⟩
  · have := length_filter_split (List.range' 0 (M.bitLength - 0))
      (fun o => getBit M.buffer o)
    simpa [BinaryMatrix.list, listBitHasState, beq_true, beq_false]
      using this
  · intro k hk
    have hlt : k < (List.range M.bitLength).length := by simpa using hk
    rw [BinaryMatrix.listBit, List.getD_eq_getElem _ _ (by simpa using hlt),
      List.getElem_map, List.getElem_range]
    exact (offsetToIndices_spec M.size k hpos hk).2

/-- Witness for `C10_list_coverage` on `fromString(["01", "10"])`. -/
theorem C10_witness :
    (∀ s ∈ (fromString ["01", "10"]).size, 1 ≤ s) ∧
      ((fromString ["01", "10"]).list true).length +
          ((fromString ["01", "10"]).list false).length =
            (fromString ["01", "10"]).bitLength
      ∧ (fromString ["01", "10"]).listBit.length =
          (fromString ["01", "10"]).bitLength
      ∧ ∀ k, k < (fromString ["01", "10"]).bitLength →
          indicesToOffset (fromString ["01", "10"]).size
            (((fromString ["01", "10"]).listBit.getD k (false, [])).2) =
              .ok k :=
  ⟨by decide, C10_list_coverage (fromString ["01", "10"]) (by decide)⟩

/-! ## Claim C1 — encode/decode round trip -/

/-- The run stream extracted by `runLengthAux`, read back as alternating
runs beginning in `state`, denotes the pending run followed by the
remaining bits. -/
theorem runsToBits_runLengthAux (bits : List Bool) :
    ∀ (state : Bool) (count : Nat),
      runsToBits state (runLengthAux state count bits) =
        List.replicate count state ++ bits := by
  induction bits with
  | nil =>
    intro state count
    simp [runLengthAux, runsToBits]
  | cons b bs ih =>
    intro state count
    by_cases h : b = state
    · rw [runLengthAux, if_pos (by simp [h]), ih state (count + 1),
        List.replicate_succ', List.append_assoc, List.singleton_append, h]
    · rw [runLengthAux, if_neg (by simp [h]), runsToBits, ih (!state) 1,
        List.replicate_one, List.singleton_append]
      have hb : b = !state := by
        cases b <;> cases state <;> simp_all
      rw [hb]

theorem runLengthAux_sum (bits : List Bool) :
    ∀ (state : Bool) (count : Nat),
      (runLengthAux state count bits).sum = count + bits.length := by
  induction bits with
  | nil => intro state count; simp [runLengthAux]
  | cons b bs ih =>
    intro state count
    by_cases h : b = state
    · rw [runLengthAux, if_pos (by simp [h]), ih state (count + 1)]
      simp; omega
    · rw [runLengthAux, if_neg (by simp [h]), List.sum_cons, ih (!state) 1]
      simp; omega

theorem runLengthAux_all_pos (bits : List Bool) :
    ∀ (state : Bool) (count : Nat), 1 ≤ count →
      ∀ x ∈ runLengthAux state count bits, 0 < x := by
  induction bits with
  | nil =>
    intro state count hc x hx
    rw [runLengthAux] at hx
    simp at hx
    omega
  | cons b bs ih =>
    intro state count hc x hx
    by_cases h : b = state
    · rw [runLengthAux, if_pos (by simp [h])] at hx
      exact ih state (count + 1) (by omega) x hx
    · rw [runLengthAux, if_neg (by simp [h])] at hx
      rcases List.mem_cons.mp hx with hx | hx
      · omega
      · exact ih (!state) 1 le_rfl x hx

theorem runLengthAux_tail_pos (bits : List Bool) :
    ∀ (state : Bool) (count : Nat),
      ∀ x ∈ (runLengthAux state count bits).drop 1, 0 < x := by
  induction bits with
  | nil =>
    intro state count x hx
    simp [runLengthAux] at hx
  | cons b bs ih =>
    intro state count x hx
    by_cases h : b = state
    · rw [runLengthAux, if_pos (by simp [h])] at hx
      exact ih state (count + 1) x hx
    · rw [runLengthAux, if_neg (by simp [h]), List.drop_one,
        List.tail_cons] at hx
      exact runLengthAux_all_pos bs (!state) 1 le_rfl x hx

theorem runsToBits_runLengthList (bits : List Bool) :
    runsToBits false (runLengthList bits) = bits := by
  cases bits with
  | nil => rfl
  | cons b bs =>
    rw [runLengthList, runsToBits_runLengthAux, List.replicate_zero,
      List.nil_append]

theorem runLengthList_sum (bits : List Bool) :
    (runLengthList bits).sum = bits.length := by
  cases bits with
  | nil => rfl
  | cons b bs => rw [runLengthList, runLengthAux_sum]; omega

theorem runLengthList_tail_pos (bits : List Bool) :
    ∀ x ∈ (runLengthList bits).drop 1, 0 < x := by
  cases bits with
  | nil => intro x hx; simp [runLengthList] at hx
  | cons b bs => exact runLengthAux_tail_pos (b :: bs) false 0

/-- When the runs sum exactly to the remaining bit budget and all runs
after the first are positive, the decode loop consumes every run and
appends precisely their denoted bits to the writer. -/
theorem decodeLoop_complete (total : Nat) :
    ∀ (runs : List Nat) (bitOffset : Nat) (state : Bool) (w : BitWriter),
      bitOffset + runs.sum = total →
      (∀ x ∈ runs.drop 1, 0 < x) →
      decodeLoop total runs bitOffset state w =
        ⟨w.capacity, w.written ++ runsToBits state runs⟩ := by
  intro runs
  induction runs with
  | nil =>
    intro bitOffset state w _ _
    simp [decodeLoop, runsToBits]
  | cons len rest ih =>
    intro bitOffset state w hsum hpos
    rw [List.sum_cons] at hsum
    by_cases hlt : bitOffset < total
    · rw [decodeLoop, if_pos hlt,
        ih (bitOffset + len) (!state) (w.write state len)
          (by omega)
          (fun x hx => hpos x (by
            rw [List.drop_one, List.tail_cons]
            exact List.drop_subset 1 rest hx)),
        BitWriter.write, runsToBits]
      simp [List.append_assoc]
    · have hlen : len = 0 ∧ rest.sum = 0 := by omega
      have hrest : rest = [] := by
        cases rest with
        | nil => rfl
        | cons r rs =>
          have hr : 0 < r := hpos r (by simp)
          have : r ≤ (r :: rs).sum := by rw [List.sum_cons]; omega
          omega
      subst hrest
      rw [decodeLoop, if_neg hlt]
      simp [runsToBits, hlen.1]

theorem getBit_take (l : List Bool) (n o : Nat) (h : o < n) :
    getBit (l.take n) o = getBit l o := by
  induction l generalizing n o with
  | nil => simp [getBit]
  | cons b bs ih =>
    cases n with
    | zero => omega
    | succ m =>
      cases o with
      | zero => rfl
      | succ p => simpa [getBit] using ih m p (by omega)

theorem getBit_append_left (l l' : List Bool) (o : Nat) (h : o < l.length) :
    getBit (l ++ l') o = getBit l o := by
  show (l ++ l').getD o false = l.getD o false
  exact List.getD_append _ _ _ _ h

theorem byteAlignedBitLength_ge (n : Nat) : n ≤ byteAlignedBitLength n := by
  rw [byteAlignedBitLength]
  omega

/-- Claim C1: for every reachable matrix `M` (non-negative extents and a
buffer covering `bitLength` bits, as every factory guarantees),
`decode(encode(M))` is-same-as `M` — identical `Size` and identical bit at
every offset below `bitLength` — and the (deterministic, purely functional)
`encode` always frames the run-length stream starting with a possibly empty
0-bit run: whenever the stream is non-empty, its first run length `r`
covers a prefix of `r` zero-bits of the data. -/
theorem C1_round_trip (M : BinaryMatrix)
    (hnn : ∀ s ∈ M.size, 0 ≤ s)
    (hbuf : M.bitLength ≤ M.buffer.length) :
    isSame (BinaryMatrix.decode M.encode) M = true
      ∧ ∀ r rest, runLength M.buffer 0 M.bitLength = r :: rest →
          ∃ tail, M.buffer.take M.bitLength = List.replicate r false ++ tail := by
  have hsizes : (M.size.map Int.toNat).map Int.ofNat = M.size := by
    rw [List.map_map]
    have hc : ∀ x ∈ M.size, (Int.ofNat ∘ Int.toNat) x = id x := fun x hx => by
      simp [Int.toNat_of_nonneg (hnn x hx)]
    rw [List.map_congr_left hc, List.map_id]
  have hbl : (M.buffer.take M.bitLength).length = M.bitLength := by
    rw [List.length_take]
    omega
  have hruns : runLength M.buffer 0 M.bitLength =
      runLengthList (M.buffer.take M.bitLength) := by
    rw [runLength, List.drop_zero]
  constructor
  · simp only [BinaryMatrix.encode, BinaryMatrix.decode]
    rw [List.take_left' (by simp), List.drop_left' (by simp), hsizes]
    have htot : sizeToBitLength M.size = M.bitLength := rfl
    rw [htot, hruns,
      decodeLoop_complete M.bitLength (runLengthList (M.buffer.take M.bitLength))
        0 false ⟨byteAlignedBitLength M.bitLength, []⟩
        (by rw [runLengthList_sum, hbl]; omega)
        (runLengthList_tail_pos _),
      runsToBits_runLengthList, List.nil_append]
    rw [isSame]
    simp only [Bool.and_eq_true, beq_iff_eq, List.all_eq_true, List.mem_range]
    refine ⟨trivial, fun o ho => ?_⟩
    have ho' : o < M.bitLength := by rw [htot] at ho; exact ho
    have hocap : o < byteAlignedBitLength M.bitLength :=
      lt_of_lt_of_le ho' (byteAlignedBitLength_ge _)
    rw [BitWriter.endBuffer, getBit_take _ _ _ hocap,
      getBit_append_left _ _ _ (by rw [hbl]; exact ho')]
    show getBit (List.take M.bitLength M.buffer) o = getBit M.buffer o
    exact getBit_take M.buffer M.bitLength o ho'
  · intro r rest h
    rw [hruns] at h
    have hd := runsToBits_runLengthList (M.buffer.take M.bitLength)
    rw [h, runsToBits] at hd
    exact ⟨runsToBits (!false) rest, hd.symm⟩

/-- Witness for `C1_round_trip` on the matrix `fromString(["01", "10"])`. -/
theorem C1_witness :
    (∀ s ∈ (fromString ["01", "10"]).size, 0 ≤ s) ∧
      (fromString ["01", "10"]).bitLength ≤
        (fromString ["01", "10"]).buffer.length ∧
      (isSame (BinaryMatrix.decode (fromString ["01", "10"]).encode)
          (fromString ["01", "10"]) = true
        ∧ ∀ r rest,
            runLength (fromString ["01", "10"]).buffer 0
              (fromString ["01", "10"]).bitLength = r :: rest →
            ∃ tail, (fromString ["01", "10"]).buffer.take
                (fromString ["01", "10"]).bitLength =
              List.replicate r false ++ tail) :=
  ⟨by decide, by decide,
    C1_round_trip (fromString ["01", "10"]) (by decide) (by decide)⟩

/-! ## Claim C9 — `paste` helper lemmas -/

theorem inRange_pos (size : List Int) :
    ∀ q, InRange size q → ∀ s ∈ size, 1 ≤ s := by
  induction size with
  | nil => intro q _ s hs; simp at hs
  | cons s0 ss ih =>
    intro q hq s hs
    cases q with
    | nil => simp [InRange] at hq
    | cons a q =>
      rw [inRange_cons_iff] at hq
      rcases List.mem_cons.mp hs with hs | hs
      · omega
      · exact ih q hq.2 s hs

theorem sizes_pos_of_bitLength_pos (size : List Int) :
    0 < sizeToBitLength size → ∀ s ∈ size, 1 ≤ s := by
  induction size with
  | nil => intro _ s hs; simp at hs
  | cons s0 ss ih =>
    intro h s hs
    rw [sizeToBitLength_cons] at h
    have h0 : 0 < s0.toNat := by
      rcases Nat.eq_zero_or_pos s0.toNat with h' | h'
      · rw [h'] at h; omega
      · exact h'
    have h1 : 0 < sizeToBitLength ss := by
      rcases Nat.eq_zero_or_pos (sizeToBitLength ss) with h' | h'
      · rw [h'] at h; omega
      · exact h'
    rcases List.mem_cons.mp hs with hs | hs
    · omega
    · exact ih h1 s hs

theorem offsetToIndices_length (size : List Int) :
    ∀ offset, (offsetToIndices size offset).length = size.length := by
  induction size with
  | nil => intro offset; rfl
  | cons s ss ih =>
    intro offset
    rw [offsetToIndices, List.length_cons, List.length_cons, ih]

theorem zipWith_add_right_cancel :
    ∀ (q1 q2 pos : List Int), q1.length = q2.length →
      q1.length ≤ pos.length →
      q1.zipWith (· + ·) pos = q2.zipWith (· + ·) pos → q1 = q2 := by
  intro q1
  induction q1 with
  | nil =>
    intro q2 pos hlen _ _
    exact (List.length_eq_zero.mp hlen.symm).symm
  | cons a q ih =>
    intro q2 pos hlen hle h
    cases q2 with
    | nil => simp at hlen
    | cons b q' =>
      cases pos with
      | nil => simp at hle
      | cons p ps =>
        rw [List.zipWith_cons_cons, List.zipWith_cons_cons, List.cons_eq_cons] at h
        have : a = b := by omega
        rw [this, ih q' ps (by simpa using hlen) (by simpa using hle) h.2]

theorem writeStep_length (buf : List Bool) (t : Nat) (b : Bool) (c : Bool) :
    (if c then setBit buf t b else buf).length = buf.length := by
  split
  · exact setBit_length buf t b
  · rfl

theorem getBit_writeStep (buf : List Bool) (t : Nat) (b : Bool) (p : Nat)
    (ht : t < buf.length) :
    getBit (if getBit buf t != b then setBit buf t b else buf) p =
      if p = t then b else getBit buf p := by
  by_cases hc : (getBit buf t != b) = true
  · rw [if_pos hc]
    by_cases hpt : p = t
    · subst hpt
      rw [getBit_setBit_self _ _ _ ht, if_pos rfl]
    · rw [getBit_setBit_ne _ _ _ _ hpt, if_neg hpt]
  · rw [if_neg hc]
    by_cases hpt : p = t
    · subst hpt
      rw [if_pos rfl]
      simpa using hc
    · rw [if_neg hpt]

/-- If every pair of the loop's worklist resolves to an in-storage target
offset, the paste loop succeeds and preserves the buffer length. -/
theorem pasteLoop_ok_of_targets (msize pos : List Int) :
    ∀ (pairs : List (Bool × List Int)) (buf : List Bool),
      (∀ pr ∈ pairs, ∃ t,
        indicesToOffset msize (pr.2.zipWith (· + ·) pos) = .ok t ∧
          t < buf.length) →
      ∃ buf', pasteLoop msize pos pairs buf = .ok buf' ∧
        buf'.length = buf.length := by
  intro pairs
  induction pairs with
  | nil => intro buf _; exact ⟨buf, rfl, rfl⟩
  | cons pr0 rest ih =>
    intro buf h
    obtain ⟨t0, ht0, ht0lt⟩ := h pr0 (List.mem_cons_self _ _)
    obtain ⟨b0, idx0⟩ := pr0
    obtain ⟨buf', hloop, hlen⟩ := ih
      (if getBit buf (t0) != b0 then setBit buf t0 b0 else buf)
      (fun pr hpr => by
        obtain ⟨t, ht, htlt⟩ := h pr (List.mem_cons_of_mem _ hpr)
        exact ⟨t, ht, by rw [writeStep_length]; exact htlt⟩)
    refine ⟨buf', ?_, by rw [hlen, writeStep_length]⟩
    simp only [pasteLoop, ht0]
    exact hloop

/-- Full characterization of the paste loop when the target offsets are
pairwise distinct: the loop succeeds, every targeted bit ends up equal to
its pair's bit, and every untargeted bit is unchanged. -/
theorem pasteLoop_ok (msize pos : List Int) :
    ∀ (pairs : List (Bool × List Int)) (buf : List Bool),
      (∀ pr ∈ pairs, ∃ t,
        indicesToOffset msize (pr.2.zipWith (· + ·) pos) = .ok t ∧
          t < buf.length) →
      (pairs.map fun pr =>
        indicesToOffset msize (pr.2.zipWith (· + ·) pos)).Nodup →
      ∃ buf', pasteLoop msize pos pairs buf = .ok buf'
        ∧ buf'.length = buf.length
        ∧ (∀ p : Nat,
            (∀ pr ∈ pairs,
              indicesToOffset msize (pr.2.zipWith (· + ·) pos) ≠ .ok p) →
            getBit buf' p = getBit buf p)
        ∧ (∀ pr ∈ pairs, ∀ t,
            indicesToOffset msize (pr.2.zipWith (· + ·) pos) = .ok t →
            getBit buf' t = pr.1) := by
  intro pairs
  induction pairs with
  | nil =>
    intro buf _ _
    exact ⟨buf, rfl, rfl, fun p _ => rfl, fun pr hpr => absurd hpr (by simp)⟩
  | cons pr0 rest ih =>
    intro buf h hnd
    obtain ⟨t0, ht0, ht0lt⟩ := h pr0 (List.mem_cons_self _ _)
    obtain ⟨b0, idx0⟩ := pr0
    rw [List.map_cons, List.nodup_cons] at hnd
    obtain ⟨buf', hloop, hlen, huntouched, hvalue⟩ := ih
      (if getBit buf (t0) != b0 then setBit buf t0 b0 else buf)
      (fun pr hpr => by
        obtain ⟨t, ht, htlt⟩ := h pr (List.mem_cons_of_mem _ hpr)
        exact ⟨t, ht, by rw [writeStep_length]; exact htlt⟩)
      hnd.2
    refine ⟨buf', ?_, by rw [hlen, writeStep_length], ?_, ?_⟩
    · simp only [pasteLoop, ht0]
      exact hloop
    · intro p hp
      rw [huntouched p (fun pr hpr => hp pr (List.mem_cons_of_mem _ hpr)),
        getBit_writeStep buf t0 b0 p ht0lt,
        if_neg (fun hc : p = t0 =>
          hp (b0, idx0) (List.mem_cons_self _ _) (by rw [ht0, hc]))]
    · intro pr hpr t ht
      rcases List.mem_cons.mp hpr with hpr | hpr
      · subst hpr
        have htt0 : t = t0 := by
          rw [ht0] at ht
          injection ht with h'
          exact h'.symm
        have hrest : ∀ pr' ∈ rest,
            indicesToOffset msize (pr'.2.zipWith (· + ·) pos) ≠ .ok t0 := by
          intro pr' hpr' hc
          apply hnd.1
          rw [ht0, ← hc]
          exact List.mem_map_of_mem _ hpr'
        rw [htt0, huntouched t0 hrest, getBit_writeStep buf t0 b0 t0 ht0lt,
          if_pos rfl]
      · exact hvalue pr hpr t ht

/-- Claim C9: for every matrix `M` (buffer covering its `bitLength`), patch
`P` and position `pos` of `P`'s dimension count such that every translated
in-range index of `P` lies within `M`'s `Size`, `M.paste(P, pos)` succeeds
and returns a matrix of `M`'s `Size` in which every translated cell of `P`
holds `P`'s bit and every in-range cell of `M` not covered by the
translated patch is unchanged. (`M` itself is unmodified: the embedding is
pure and `paste` clones the buffer.) -/
theorem C9_paste (M patch : BinaryMatrix) (pos : List Int)
    (hplen : pos.length = patch.size.length)
    (hMbuf : M.bitLength ≤ M.buffer.length)
    (hrange : ∀ q, InRange patch.size q →
      InRange M.size (q.zipWith (· + ·) pos)) :
    ∃ R, M.paste patch pos = .ok R
      ∧ R.size = M.size
      ∧ (∀ q, InRange patch.size q →
          R.get (q.zipWith (· + ·) pos) = patch.get q)
      ∧ (∀ j, InRange M.size j →
          (∀ q, InRange patch.size q → j ≠ q.zipWith (· + ·) pos) →
          R.get j = M.get j) := by
  have hpair : ∀ pr ∈ patch.listBit, ∃ o, o < patch.bitLength ∧
      pr = (getBit patch.buffer o, offsetToIndices patch.size o) := by
    intro pr hpr
    rw [BinaryMatrix.listBit] at hpr
    obtain ⟨o, ho, hf⟩ := List.mem_map.mp hpr
    exact ⟨o, List.mem_range.mp ho, hf.symm⟩
  have hq : ∀ o, o < patch.bitLength →
      InRange patch.size (offsetToIndices patch.size o) ∧
        indicesToOffset patch.size (offsetToIndices patch.size o) = .ok o :=
    fun o ho => offsetToIndices_spec patch.size o
      (sizes_pos_of_bitLength_pos patch.size
        (lt_of_le_of_lt (Nat.zero_le o) ho)) ho
  have htargets : ∀ pr ∈ patch.listBit, ∃ t,
      indicesToOffset M.size (pr.2.zipWith (· + ·) pos) = .ok t ∧
        t < M.buffer.length := by
    intro pr hpr
    obtain ⟨o, ho, hf⟩ := hpair pr hpr
    obtain ⟨hqin, _⟩ := hq o ho
    obtain ⟨t, ht, htlt⟩ := indicesToOffset_ok M.size _ (hrange _ hqin)
    exact ⟨t, by rw [hf]; exact ht, lt_of_lt_of_le htlt hMbuf⟩
  have hnd : (patch.listBit.map fun pr =>
      indicesToOffset M.size (pr.2.zipWith (· + ·) pos)).Nodup := by
    rw [BinaryMatrix.listBit, List.map_map]
    apply List.Nodup.map_on ?_ (List.nodup_range _)
    intro o1 ho1 o2 ho2 heq
    rw [List.mem_range] at ho1 ho2
    simp only [Function.comp] at heq
    obtain ⟨hq1, hoff1⟩ := hq o1 ho1
    obtain ⟨hq2, hoff2⟩ := hq o2 ho2
    obtain ⟨t, ht1, _⟩ := indicesToOffset_ok M.size _ (hrange _ hq1)
    have ht2 : indicesToOffset M.size
        ((offsetToIndices patch.size o2).zipWith (· + ·) pos) = .ok t := by
      rw [← heq]
      exact ht1
    have htr : (offsetToIndices patch.size o1).zipWith (· + ·) pos =
        (offsetToIndices patch.size o2).zipWith (· + ·) pos :=
      indicesToOffset_inj M.size _ _ (hrange _ hq1) (hrange _ hq2) t ht1 ht2
    have hqq : offsetToIndices patch.size o1 = offsetToIndices patch.size o2 :=
      zipWith_add_right_cancel _ _ pos
        (by rw [offsetToIndices_length, offsetToIndices_length])
        (by rw [offsetToIndices_length, hplen]) htr
    rw [hqq, hoff2] at hoff1
    injection hoff1 with h'
    exact h'.symm
  obtain ⟨buf', hloop, _, huntouched, hvalue⟩ :=
    pasteLoop_ok M.size pos patch.listBit M.buffer htargets hnd
  refine ⟨⟨M.size, buf'⟩, ?_, rfl, ?_, ?_⟩
  · simp only [BinaryMatrix.paste, hloop]
  · intro q hqin
    obtain ⟨o, ho, holt⟩ := indicesToOffset_ok patch.size q hqin
    obtain ⟨hq_in, hq_off⟩ := hq o holt
    have hqeq : offsetToIndices patch.size o = q :=
      indicesToOffset_inj patch.size _ q hq_in hqin o hq_off ho
    have hmem : (getBit patch.buffer o, offsetToIndices patch.size o) ∈
        patch.listBit := by
      rw [BinaryMatrix.listBit]
      exact List.mem_map_of_mem _ (List.mem_range.mpr holt)
    obtain ⟨t, ht, _⟩ := indicesToOffset_ok M.size _ (hrange q hqin)
    have htpr : indicesToOffset M.size
        (((getBit patch.buffer o,
          offsetToIndices patch.size o)).2.zipWith (· + ·) pos) = .ok t := by
      show indicesToOffset M.size
        ((offsetToIndices patch.size o).zipWith (· + ·) pos) = .ok t
      rw [hqeq]
      exact ht
    have hval := hvalue _ hmem t htpr
    rw [get_of_offset ⟨M.size, buf'⟩ _ t ht, get_of_offset patch q o ho]
    exact congrArg Except.ok hval
  · intro j hj huncov
    obtain ⟨pj, hpj, _⟩ := indicesToOffset_ok M.size j hj
    have hnot : ∀ pr ∈ patch.listBit,
        indicesToOffset M.size (pr.2.zipWith (· + ·) pos) ≠ .ok pj := by
      intro pr hpr hc
      obtain ⟨o, ho, hf⟩ := hpair pr hpr
      obtain ⟨hq_in, _⟩ := hq o ho
      rw [hf] at hc
      have hjq : j = (offsetToIndices patch.size o).zipWith (· + ·) pos :=
        indicesToOffset_inj M.size j _ hj (hrange _ hq_in) pj hpj hc
      exact huncov _ hq_in hjq
    rw [get_of_offset ⟨M.size, buf'⟩ j pj hpj, get_of_offset M j pj hpj,
      huntouched pj hnot]

/-- Every in-range index of the 2×2 patch, shifted by `[1, 1]`, lands inside
a 3×3 matrix. -/
theorem paste_witness_range :
    ∀ q, InRange (fromString ["11", "11"]).size q →
      InRange (fromSize [3, 3] : BinaryMatrix).size
        (q.zipWith (· + ·) [1, 1]) := by
  intro q hq
  have hs2 : (fromString ["11", "11"]).size = [2, 2] := rfl
  rw [hs2] at hq
  rcases q with _ | ⟨a, q⟩
  · simp [InRange] at hq
  rcases q with _ | ⟨b, q⟩
  · rw [inRange_cons_iff] at hq
    simp [InRange] at hq
  rcases q with _ | ⟨c, q⟩
  · rw [inRange_cons_iff, inRange_cons_iff] at hq
    obtain ⟨ha, hb, _⟩ := hq
    show InRange [3, 3] [a + 1, b + 1]
    rw [inRange_cons_iff, inRange_cons_iff]
    exact ⟨⟨by omega, by omega⟩, ⟨by omega, by omega⟩, rfl, by simp⟩
  · exfalso
    have hlen := hq.1
    simp at hlen

/-- Witness for `C9_paste`: pasting the all-ones 2×2 patch into an all-zero
3×3 matrix at position `[1, 1]`. -/
theorem C9_witness :
    ([(1 : Int), 1].length = (fromString ["11", "11"]).size.length)
    ∧ (fromSize [3, 3] : BinaryMatrix).bitLength ≤
        (fromSize [3, 3] : BinaryMatrix).buffer.length
    ∧ (∃ R, (fromSize [3, 3] : BinaryMatrix).paste
          (fromString ["11", "11"]) [1, 1] = .ok R
        ∧ R.size = (fromSize [3, 3] : BinaryMatrix).size
        ∧ (∀ q, InRange (fromString ["11", "11"]).size q →
            R.get (q.zipWith (· + ·) [1, 1]) =
              (fromString ["11", "11"]).get q)
        ∧ (∀ j, InRange (fromSize [3, 3] : BinaryMatrix).size j →
            (∀ q, InRange (fromString ["11", "11"]).size q →
              j ≠ q.zipWith (· + ·) [1, 1]) →
            R.get j = (fromSize [3, 3] : BinaryMatrix).get j)) :=
  ⟨by decide, by decide,
    C9_paste (fromSize [3, 3]) (fromString ["11", "11"]) [1, 1]
      (by decide) (by decide) paste_witness_range⟩

/-! ## Claims C2 and C3 — the expansion path on negative indices -/

/-- Every cell of the old box, translated by the origin shift, lies inside
the expansion's bounding box (spec §4.2 formulas). -/
theorem expansion_translate_inRange :
    ∀ (indices size q : List Int), indices.length = size.length →
      InRange size q →
      InRange
        ((indices.zip size).map fun p => max (p.2 - 1) p.1 - min 0 p.1 + 1)
        (q.zipWith (· + ·) (indices.map fun i => -(min 0 i))) := by
  intro indices
  induction indices with
  | nil =>
    intro size q hlen hq
    have hsz : size = [] := List.length_eq_zero.mp hlen.symm
    subst hsz
    rw [inRange_nil_iff] at hq
    subst hq
    exact ⟨rfl, by simp⟩
  | cons i is ih =>
    intro size q hlen hq
    cases size with
    | nil => simp at hlen
    | cons s ss =>
      cases q with
      | nil => simp [InRange] at hq
      | cons a qs =>
        rw [inRange_cons_iff] at hq
        rw [List.zip_cons_cons, List.map_cons, List.map_cons,
          List.zipWith_cons_cons, inRange_cons_iff]
        exact ⟨⟨by omega, by omega⟩, ih ss qs (by simpa using hlen) hq.2⟩

theorem exists_mem_zip_of_mem_left :
    ∀ (l1 l2 : List Int) (x : Int), x ∈ l1 → l1.length ≤ l2.length →
      ∃ y, (x, y) ∈ l1.zip l2 := by
  intro l1
  induction l1 with
  | nil => intro l2 x hx _; simp at hx
  | cons a l ih =>
    intro l2 x hx hlen
    cases l2 with
    | nil => simp at hlen
    | cons b l2' =>
      rcases List.mem_cons.mp hx with hx | hx
      · exact ⟨b, by rw [hx]; simp⟩
      · obtain ⟨y, hy⟩ := ih l2' x hx (by simpa using hlen)
        exact ⟨y, List.mem_cons_of_mem _ hy⟩

/-- The recursion of `set` on an index list with a negative component never
reaches an in-bounds write: `setExternalBit` recurses with the untranslated
indices, the negative component keeps the ExpansionPlanner firing, and the
matrix keeps growing — for every fuel bound the result is `none`. -/
theorem setFuel_neg_diverges :
    ∀ (fuel : Nat) (M : BinaryMatrix) (indices : List Int) (v : Bool),
      indices.length = M.size.length →
      (∀ s ∈ M.size, 1 ≤ s) →
      (∃ i ∈ indices, i < 0) →
      M.setFuel indices v fuel = none := by
  intro fuel
  induction fuel with
  | zero => intro M indices v _ _ _; rfl
  | succ fuel ih =>
    intro M indices v hlen hpos hneg
    obtain ⟨i0, hi0mem, hi0neg⟩ := hneg
    obtain ⟨s0, hzip⟩ := exists_mem_zip_of_mem_left indices M.size i0 hi0mem
      (by omega)
    have hreq : expansionRequired M.size indices = true := by
      rw [expansionRequired, List.any_eq_true]
      exact ⟨(i0, s0), hzip, by simp; omega⟩
    set ns : List Int :=
      (indices.zip M.size).map fun p => max (p.2 - 1) p.1 - min 0 p.1 + 1
      with hns
    set np : List Int := indices.map fun i => -(min 0 i) with hnp
    have hce : checkExpansion M.size indices = some ⟨ns, np⟩ := by
      rw [checkExpansion, if_pos hreq]
    have htargets : ∀ pr ∈ M.listBit, ∃ t,
        indicesToOffset ns (pr.2.zipWith (· + ·) np) = .ok t ∧
          t < (fromSize ns).buffer.length := by
      intro pr hpr
      rw [BinaryMatrix.listBit] at hpr
      obtain ⟨o, ho, hf⟩ := List.mem_map.mp hpr
      rw [List.mem_range] at ho
      obtain ⟨hqin, _⟩ := offsetToIndices_spec M.size o hpos ho
      have htr := expansion_translate_inRange indices M.size
        (offsetToIndices M.size o) hlen hqin
      rw [← hns, ← hnp] at htr
      obtain ⟨t, ht, htlt⟩ := indicesToOffset_ok ns _ htr
      refine ⟨t, by rw [← hf]; exact ht, ?_⟩
      show t < (createBufferFromBitLength (sizeToBitLength ns)).length
      rw [createBufferFromBitLength, List.length_replicate]
      exact lt_of_lt_of_le htlt (byteAlignedBitLength_ge _)
    obtain ⟨buf', hloop, _⟩ := pasteLoop_ok_of_targets ns np M.listBit
      (fromSize ns).buffer htargets
    have hpaste : (fromSize ns).paste M np = .ok ⟨ns, buf'⟩ := by
      have hloop' : pasteLoop ns np M.listBit
          (createBufferFromBitLength (sizeToBitLength ns)) = .ok buf' := hloop
      simp only [BinaryMatrix.paste, BinaryMatrix.fromSize, hloop']
    simp only [BinaryMatrix.setFuel, hce, hpaste]
    apply ih
    · show indices.length = ns.length
      rw [hns, List.length_map, List.length_zip]
      omega
    · intro s hs
      rw [hns] at hs
      obtain ⟨p, _, hp⟩ := List.mem_map.mp hs
      omega
    · exact ⟨i0, hi0mem, hi0neg⟩

/-- Claim C3, the code at the failing input: `fromSize([2]).set([-1], true)`
never terminates — for every fuel bound the recursion is still running.
The untranslated index `-1` keeps triggering the ExpansionPlanner on every
recursive call of `setExternalBit`, so no in-bounds write is ever reached,
refuting the claim that `set` terminates for negative components. -/
theorem C3_set_negative_diverges :
    ∀ fuel : Nat,
      (fromSize [2] : BinaryMatrix).setFuel [-1] true fuel = none :=
  fun fuel => setFuel_neg_diverges fuel (fromSize [2]) [-1] true
    (by decide) (by decide) ⟨-1, by decide, by decide⟩

/-- Claim C2, the code at the failing input: for the out-of-bounds index
`[-2]` on `fromSize([3])`, `M.set(i, v)` produces no matrix at all — the
final write is applied with the untranslated index, which stays negative in
every expanded coordinate space, so the recursion never terminates and no
`M2` with the claimed translated-read-back properties exists. -/
theorem C2_expansion_untranslated_diverges :
    ∀ fuel : Nat,
      (fromSize [3] : BinaryMatrix).setFuel [-2] true fuel = none :=
  fun fuel => setFuel_neg_diverges fuel (fromSize [3]) [-2] true
    (by decide) (by decide) ⟨-2, by decide, by decide⟩

/-! ## Claim C6 — `fromString` cell characterization -/

theorem getBit_replicate_false (n p : Nat) :
    getBit (List.replicate n false) p = false := by
  induction n generalizing p with
  | zero => rfl
  | succ m ih =>
    cases p with
    | zero => rfl
    | succ q =>
      rw [List.replicate_succ]
      show getBit (List.replicate m false) q = false
      exact ih q

theorem block_offset_inj (cc r c r' c' : Nat) (hc : c < cc) (hc' : c' < cc)
    (h : cc * r + c = cc * r' + c') : r = r' ∧ c = c' := by
  have hcc : c = c' := by
    have h1 : (cc * r + c) % cc = c := by
      rw [Nat.mul_add_mod, Nat.mod_eq_of_lt hc]
    have h2 : (cc * r' + c') % cc = c' := by
      rw [Nat.mul_add_mod, Nat.mod_eq_of_lt hc']
    rw [← h1, ← h2, h]
  refine ⟨?_, hcc⟩
  have : cc * r = cc * r' := by omega
  exact Nat.eq_of_mul_eq_mul_left (by omega) this

/-- One row of `fromString`'s nested loop: folding the conditional
`setBit(bitOffset + columnIndex, true)` writes over a duplicate-free column
list sets exactly the cells whose character test holds, `or`-ing `true`
into them, and touches nothing else. -/
theorem fromString_inner (row : String) (bo : Nat) :
    ∀ (cs : List Nat) (buf : List Bool), cs.Nodup →
      ∃ buf', (cs.foldl (fun buf2 columnIndex =>
          if fromStringCell row columnIndex then
            setBit buf2 (bo + columnIndex) true
          else buf2) buf) = buf'
        ∧ buf'.length = buf.length
        ∧ (∀ p, (∀ c ∈ cs, p ≠ bo + c) → getBit buf' p = getBit buf p)
        ∧ (∀ c ∈ cs, bo + c < buf.length →
            getBit buf' (bo + c) =
              (getBit buf (bo + c) || fromStringCell row c)) := by
  intro cs
  induction cs with
  | nil =>
    intro buf _
    exact ⟨buf, rfl, rfl, fun _ _ => rfl, fun c hc => absurd hc (by simp)⟩
  | cons c0 cs ih =>
    intro buf hnd
    rw [List.nodup_cons] at hnd
    have hstep_ne : ∀ p, p ≠ bo + c0 →
        getBit (if fromStringCell row c0 then setBit buf (bo + c0) true
          else buf) p = getBit buf p := by
      intro p hp
      by_cases hc : fromStringCell row c0 = true
      · rw [if_pos hc, getBit_setBit_ne _ _ _ _ hp]
      · rw [if_neg hc]
    obtain ⟨buf', hfold, hlen, huntouched, hvalue⟩ := ih
      (if fromStringCell row c0 then setBit buf (bo + c0) true else buf)
      hnd.2
    refine ⟨buf', by rw [List.foldl_cons]; exact hfold,
      by rw [hlen, writeStep_length], ?_, ?_⟩
    · intro p hp
      rw [huntouched p (fun c hc => hp c (List.mem_cons_of_mem _ hc)),
        hstep_ne p (hp c0 (List.mem_cons_self _ _))]
    · intro c hc hlt
      rcases List.mem_cons.mp hc with hc | hc
      · subst hc
        have hrest : ∀ c' ∈ cs, bo + c ≠ bo + c' := by
          intro c' hc' heq
          exact hnd.1 (by
            have : c = c' := by omega
            rw [this]; exact hc')
        rw [huntouched (bo + c) hrest]
        by_cases hcell : fromStringCell row c = true
        · rw [if_pos hcell, getBit_setBit_self _ _ _ hlt, hcell,
            Bool.or_true]
        · rw [if_neg hcell, (Bool.not_eq_true _).mp hcell, Bool.or_false]
      · have hne : bo + c ≠ bo + c0 := by
          intro heq
          have : c = c0 := by omega
          exact hnd.1 (this ▸ hc)
        rw [hvalue c hc (by rw [writeStep_length]; exact hlt), hstep_ne _ hne]

/-- The whole nested loop of `fromString` over a duplicate-free row list:
each cell `(r, c)` of the grid receives the `or` of its previous bit and
its character test; all other bits are untouched. -/
theorem fromString_outer (rows : List String) (cc : Nat) :
    ∀ (rs : List Nat) (buf : List Bool), rs.Nodup →
      ∃ buf', (rs.foldl (fun buf rowIndex =>
          (List.range cc).foldl (fun buf2 columnIndex =>
            if fromStringCell (rows.getD rowIndex "") columnIndex then
              setBit buf2 (cc * rowIndex + columnIndex) true
            else buf2) buf) buf) = buf'
        ∧ buf'.length = buf.length
        ∧ (∀ p, (∀ r ∈ rs, ∀ c, c < cc → p ≠ cc * r + c) →
            getBit buf' p = getBit buf p)
        ∧ (∀ r ∈ rs, ∀ c, c < cc → cc * r + c < buf.length →
            getBit buf' (cc * r + c) =
              (getBit buf (cc * r + c) ||
                fromStringCell (rows.getD r "") c)) := by
  intro rs
  induction rs with
  | nil =>
    intro buf _
    exact ⟨buf, rfl, rfl, fun _ _ => rfl, fun r hr => absurd hr (by simp)⟩
  | cons r0 rs ih =>
    intro buf hnd
    rw [List.nodup_cons] at hnd
    obtain ⟨buf1, hinner, hlen1, hunt1, hval1⟩ :=
      fromString_inner (rows.getD r0 "") (cc * r0) (List.range cc) buf
        (List.nodup_range cc)
    obtain ⟨buf', hfold, hlen, huntouched, hvalue⟩ := ih buf1 hnd.2
    refine ⟨buf', by rw [List.foldl_cons, hinner]; exact hfold,
      by rw [hlen, hlen1], ?_, ?_⟩
    · intro p hp
      rw [huntouched p (fun r hr c hc => hp r (List.mem_cons_of_mem _ hr) c hc),
        hunt1 p (fun c hcm =>
          hp r0 (List.mem_cons_self _ _) c (List.mem_range.mp hcm))]
    · intro r hr c hc hlt
      rcases List.mem_cons.mp hr with hr | hr
      · subst hr
        have hrest : ∀ r' ∈ rs, ∀ c', c' < cc →
            cc * r + c ≠ cc * r' + c' := by
          intro r' hr' c' hc' heq
          obtain ⟨hre, _⟩ := block_offset_inj cc r c r' c' hc hc' heq
          exact hnd.1 (hre ▸ hr')
        rw [huntouched _ hrest, hval1 c (List.mem_range.mpr hc) hlt]
      · have hne : ∀ c' ∈ List.range cc, cc * r + c ≠ cc * r0 + c' := by
          intro c' hc' heq
          obtain ⟨hre, _⟩ :=
            block_offset_inj cc r c r0 c' hc (List.mem_range.mp hc') heq
          exact hnd.1 (hre ▸ hr)
        rw [hvalue r hr c hc (by rw [hlen1]; exact hlt), hunt1 _ hne]

/-- Claim C6 as amended: `fromString` never aborts and validates nothing.
For every row array it builds a matrix of `Size`
`[first row length, row count]` whose cell `(col, row)` holds the character
test `rows[row][col] !== '0'` — for a row shorter than the first row the
missing character is `undefined` and the cell silently reads `true`
(padding), while characters of longer rows beyond the first row's length
are silently ignored (truncation). -/
theorem C6_amended (rows : List String) (col row : Nat)
    (hcol : col < (rows.headD "").length)
    (hrow : row < rows.length) :
    (fromString rows).size =
        [((rows.headD "").length : Int), (rows.length : Int)]
      ∧ (fromString rows).get [(col : Int), (row : Int)] =
          .ok (fromStringCell (rows.getD row "") col) := by
  refine ⟨rfl, ?_⟩
  have hoff : indicesToOffset [((rows.headD "").length : Int),
      (rows.length : Int)] [(col : Int), (row : Int)] =
      .ok (col + (rows.headD "").length * row) := by
    rw [indicesToOffset_cons_ok ((rows.headD "").length : Int) (col : Int)
        [(rows.length : Int)] [(row : Int)]
        ((row : Int).toNat + ((rows.length : Int)).toNat * 0)
        (Int.ofNat_nonneg col) (by exact_mod_cast hcol)
        (indicesToOffset_cons_ok ((rows.length : Nat) : Int) ((row : Nat) : Int)
          [] [] 0 (Int.ofNat_nonneg row) (by exact_mod_cast hrow) rfl)]
    simp [Int.toNat_ofNat]
  obtain ⟨buf', hfold, hlen, _, hvalue⟩ :=
    fromString_outer rows (rows.headD "").length
      (List.range rows.length)
      (createBufferFromBitLength (sizeToBitLength
        [((rows.headD "").length : Int), (rows.length : Int)]))
      (List.nodup_range rows.length)
  have hbuf : (fromString rows).buffer = buf' := hfold
  have htotal : sizeToBitLength
      [((rows.headD "").length : Int), (rows.length : Int)] =
      (rows.headD "").length * (rows.length * 1) := by
    simp [sizeToBitLength]
  have hofflt : (rows.headD "").length * row + col <
      (createBufferFromBitLength (sizeToBitLength
        [((rows.headD "").length : Int), (rows.length : Int)])).length := by
    rw [createBufferFromBitLength, List.length_replicate]
    apply lt_of_lt_of_le _ (byteAlignedBitLength_ge _)
    rw [htotal]
    calc (rows.headD "").length * row + col
        < (rows.headD "").length * row + (rows.headD "").length := by omega
      _ = (rows.headD "").length * (row + 1) := by ring
      _ ≤ (rows.headD "").length * (rows.length * 1) :=
          Nat.mul_le_mul_left _ (by omega)
  have hval := hvalue row (List.mem_range.mpr hrow) col hcol hofflt
  have hzero : getBit (createBufferFromBitLength (sizeToBitLength
      [((rows.headD "").length : Int), (rows.length : Int)]))
      ((rows.headD "").length * row + col) = false := by
    rw [createBufferFromBitLength]
    exact getBit_replicate_false _ _
  rw [get_of_offset (fromString rows) _ (col + (rows.headD "").length * row)
    hoff, hbuf]
  rw [Nat.add_comm col ((rows.headD "").length * row), hval, hzero,
    Bool.false_or]

/-- Witness for `C6_amended` on `fromString(["01", "10"])` at cell
`(1, 0)`. -/
theorem C6_amended_witness :
    1 < (["01", "10"].headD "").length ∧ 0 < ["01", "10"].length ∧
      ((fromString ["01", "10"]).size =
          [((["01", "10"].headD "").length : Int),
            (["01", "10"].length : Int)]
        ∧ (fromString ["01", "10"]).get [(1 : Int), (0 : Int)] =
            .ok (fromStringCell (["01", "10"].getD 0 "") 1)) :=
  ⟨by decide, by decide, C6_amended ["01", "10"] 1 0 (by decide) (by decide)⟩
